import Mathlib

/-!
Verification development for a small rule-based inference engine
(knowledge-based agent).  The definitions below are shallow embeddings of
the Python sources:

* `src/streamlit_app.py` — `is_valid_term`, `forward_chain`,
  `get_probabilities`, the delete-rule handler and the infer handler;
* `src/inference_engine.py` — `infer_with_explanation`.

Strings are modelled as Lean `String`s (the data is ASCII), Python lists
as Lean `List`s, Python `dict`s as insertion-ordered association lists,
and Python floats as exact rationals `ℚ` (the float arithmetic the code
performs on small ratios is modelled by exact rational arithmetic).
Python's `int()` truncation of a non-negative quotient is modelled as
natural floor division.
-/

namespace KBAgent

/-- A rule of `streamlit_app.py`: a dict `{"if": [...], "then": "..."}`. -/
structure SRule where
  «if» : List String
  «then» : String
deriving DecidableEq, Repr

/-! ## Term normalization and validation (`streamlit_app.py` lines 28-51) -/

/-- The ASCII whitespace characters stripped by Python `str.strip()`. -/
def isPySpace (c : Char) : Bool :=
  c = ' ' || c = '\t' || c = '\n' || c = '\r' || c.val = 11 || c.val = 12

/-- Python `s.strip()`: remove leading and trailing whitespace. -/
def pyStrip (s : String) : String :=
  ⟨((s.data.dropWhile isPySpace).reverse.dropWhile isPySpace).reverse⟩

/-- Python `s.replace(" ", "")`: remove every space character. -/
def stripSpaces (s : String) : List Char :=
  s.data.filter (fun c => c ≠ ' ')

/-- Python `s.isalpha()`: non-empty and every character a letter. -/
def pyIsAlphaStr (l : List Char) : Bool :=
  !l.isEmpty && l.all Char.isAlpha

/-- Python `re.search(r"(.)\1{2,}", s)`: some character occurs three or
more times consecutively.  (In `is_valid_term` this is only evaluated
after the all-alphabetic check, so every character is a letter there.) -/
def hasRun3 : List Char → Bool
  | a :: b :: c :: rest => (a = b && b = c) || hasRun3 (b :: c :: rest)
  | _ => false

/-- Python `has_vowel`: `re.search(r"[aeiou]", s)` (lower-case vowels). -/
def has_vowel (s : String) : Bool :=
  s.data.any (fun c => c = 'a' || c = 'e' || c = 'i' || c = 'o' || c = 'u')

/-- `streamlit_app.is_valid_term`.  The source binds `term = term.strip()`
once; here `pyStrip term` is repeated, which is identical since the
functions are pure. -/
def is_valid_term (term : String) : Bool :=
  if (pyStrip term).length < 3 then false
  else if !pyIsAlphaStr (stripSpaces (pyStrip term)) then false
  else if hasRun3 (stripSpaces (pyStrip term)) then false
  else if !has_vowel (pyStrip term) then false
  else true

/-! ## Forward chaining (`streamlit_app.py` lines 54-65)

The working fact set is a Python list (`facts = facts[:]`, `append`);
the conclusion set is a Python `set`, modelled here as the list of
conclusions in insertion order (the Python `list(conclusions)` order is
unspecified, so only membership and emptiness of the returned list are
meaningful, and those agree with this model). The `while changed` loop is
modelled with fuel; `fcLoop_fuel_irrel` below shows that
`rules.length + 1` passes always reach the fixpoint, so the fuelled
function computes exactly what the unbounded loop computes. -/

/-- One iteration of the inner `for r in rules` body: fire `r` if all its
conditions are present and its conclusion is not. -/
def fcStep (s : List String × List String × Bool) (r : SRule) :
    List String × List String × Bool :=
  if r.«if».all (fun c => s.1.contains c) && !s.1.contains r.«then» then
    (s.1 ++ [r.«then»], s.2.1 ++ [r.«then»], true)
  else s

/-- One full pass over the rules, starting with `changed = False`. -/
def fcPass (rules : List SRule) (facts concls : List String) :
    List String × List String × Bool :=
  rules.foldl fcStep (facts, concls, false)

/-- The `while changed` loop, with explicit fuel (number of passes). -/
def fcLoop (rules : List SRule) : Nat → List String → List String →
    List String × List String
  | 0, facts, concls => (facts, concls)
  | fuel + 1, facts, concls =>
    let t := fcPass rules facts concls
    if t.2.2 then fcLoop rules fuel t.1 t.2.1 else (t.1, t.2.1)

/-- The final (facts, conclusions) state of `forward_chain`.
`rules.length + 1` passes suffice (proved below). -/
def forwardChainState (rules : List SRule) (facts : List String) :
    List String × List String :=
  fcLoop rules (rules.length + 1) facts []

/-- `streamlit_app.forward_chain`: returns the conclusion set. -/
def forward_chain (rules : List SRule) (facts : List String) : List String :=
  (forwardChainState rules facts).2

/-! ## Partial-match scoring (`streamlit_app.py` lines 67-75) -/

/-- An entry `{"disease": ..., "prob": ...}` of `get_probabilities`. -/
structure Prob where
  disease : String
  prob : Nat
deriving DecidableEq, Repr

/-- `matches = sum(1 for c in r["if"] if c in facts)`. -/
def matchCount (facts : List String) (r : SRule) : Nat :=
  (r.«if».filter (fun c => facts.contains c)).length

/-- `p = int((matches / max(1, len(r["if"]))) * 100)`: truncation of the
non-negative quotient, i.e. the floor, as natural floor division. -/
def probOf (facts : List String) (r : SRule) : Nat :=
  matchCount facts r * 100 / max 1 r.«if».length

/-- `streamlit_app.get_probabilities`: one entry per rule with at least
one matched condition and a percentage of at least 30, sorted by
percentage descending.  Python `sorted(..., key=..., reverse=True)` is a
stable sort; a stable sort's output is uniquely determined by the (total)
comparator and the input order, so the stable `insertionSort` computes
exactly the same list. -/
def get_probabilities (rules : List SRule) (facts : List String) : List Prob :=
  (rules.filterMap (fun r =>
    if 0 < matchCount facts r then
      if 30 ≤ probOf facts r then some ⟨r.«then», probOf facts r⟩ else none
    else none)).insertionSort (fun a b => b.prob ≤ a.prob)

/-! ## Delete-rule handler (`streamlit_app.py` lines 139-145) -/

/-- The observable outcome of the delete handler: either the rule is
removed, saved and a success message shown (`deleted`), or nothing at
all happens (`silent`).  The source has no error branch. -/
inductive DeleteOutcome
  | deleted
  | silent
deriving DecidableEq, Repr

/-- The delete handler: `if 0 <= idx < len(rules): rules.pop(idx); ...`,
with no `else` branch. -/
def delete_index (rules : List SRule) (idx : Int) : List SRule × DeleteOutcome :=
  if 0 ≤ idx ∧ idx < (rules.length : Int) then
    (rules.eraseIdx idx.toNat, .deleted)
  else
    (rules, .silent)

/-! ## Infer handler (`streamlit_app.py` lines 183-202) -/

/-- What the infer handler displays. -/
inductive InferView
  | emptyInput
  | fullMatch (cs : List String)
  | probList (ps : List Prob)
  | noMatch
deriving DecidableEq, Repr

/-- The infer-submit handler, given the already-parsed fact list:
an error on empty input, else the conclusions if any, else the
probabilities if any, else "no condition found". -/
def infer_submit (rules : List SRule) (facts : List String) : InferView :=
  if facts.isEmpty then .emptyInput
  else
    if !(forward_chain rules facts).isEmpty then .fullMatch (forward_chain rules facts)
    else if !(get_probabilities rules facts).isEmpty then .probList (get_probabilities rules facts)
    else .noMatch

/-! ## `inference_engine.py` — `infer_with_explanation` -/

/-- A rule of `inference_engine.py`: `{'id': .., 'if': [..], 'then': ..}`.
Total fields model the `rule.get("if", [])` / `rule.get("then", "")`
accesses with their defaults. -/
structure IRule where
  id : Int
  «if» : List String
  «then» : String
deriving DecidableEq, Repr

/-- Helper for `pyTitle`: the boolean is whether the previous character
was alphabetic. -/
def pyTitleAux : Bool → List Char → List Char
  | _, [] => []
  | prevAlpha, c :: cs =>
    if c.isAlpha then
      (if prevAlpha then c.toLower else c.toUpper) :: pyTitleAux true cs
    else
      c :: pyTitleAux false cs

/-- Python `s.title()` (ASCII): upper-case each letter that follows a
non-letter, lower-case every other letter. -/
def pyTitle (s : String) : String :=
  ⟨pyTitleAux false s.data⟩

/-- Round-half-to-even on the integers, Python's `round` tie rule. -/
def roundHalfEven (q : ℚ) : Int :=
  if q - ⌊q⌋ < 1 / 2 then ⌊q⌋
  else if 1 / 2 < q - ⌊q⌋ then ⌊q⌋ + 1
  else if ⌊q⌋ % 2 = 0 then ⌊q⌋ else ⌊q⌋ + 1

/-- Python `round(x, 2)`: round to two decimal places (half to even).
The float value is modelled as an exact rational. -/
def round2 (q : ℚ) : ℚ :=
  (roundHalfEven (q * 100) : ℚ) / 100

/-- `round((len(matched) / len(conditions)) * 100, 2)`. -/
def pctOf (nMatched nConds : Nat) : ℚ :=
  round2 ((nMatched : ℚ) / (nConds : ℚ) * 100)

/-- Lookup in an insertion-ordered association list (Python dict read). -/
def lookupQ : List (String × ℚ) → String → Option ℚ
  | [], _ => none
  | (k, v) :: rest, c => if k = c then some v else lookupQ rest c

/-- Python dict assignment `m[k] = v`: overwrite in place if the key is
present (keeping its position), else append at the end. -/
def setQ : List (String × ℚ) → String → ℚ → List (String × ℚ)
  | [], k, v => [(k, v)]
  | (k', v') :: rest, k, v =>
    if k' = k then (k', v) :: rest else (k', v') :: setQ rest k v

/-- `if conclusion not in partial or percent > partial[conclusion]:
partial[conclusion] = percent` — keep the best percent per conclusion. -/
def updateBest (m : List (String × ℚ)) (c : String) (p : ℚ) : List (String × ℚ) :=
  match lookupQ m c with
  | none => setQ m c p
  | some p0 => if p0 < p then setQ m c p else m

/-- The local `conditions = [c.title() for c in rule.get("if", [])]`. -/
def ruleConds (r : IRule) : List String :=
  r.«if».map pyTitle

/-- The local `conclusion = rule.get("then", "").title()`. -/
def ruleConcl (r : IRule) : String :=
  pyTitle r.«then»

/-- The local `matched = [c for c in conditions if c in facts_set]`. -/
def ruleMatched (facts_set : List String) (r : IRule) : List String :=
  (ruleConds r).filter (fun c => facts_set.contains c)

/-- The local `percent = round((len(matched) / len(conditions)) * 100, 2)`. -/
def rulePct (facts_set : List String) (r : IRule) : ℚ :=
  pctOf (ruleMatched facts_set r).length (ruleConds r).length

/-- The state accumulated by the `for rule in kb` loop, and also the
shape of the returned dict. -/
structure InferResult where
  conclusions : List String
  part : List (String × ℚ)
  explanation : List String
deriving DecidableEq, Repr

/-- The body of the `for rule in kb` loop of `infer_with_explanation`. -/
def inferStep (facts_set : List String) (s : InferResult) (rule : IRule) : InferResult :=
  if (ruleConds rule).isEmpty || ruleConcl rule = "" then s
  else
    if (ruleMatched facts_set rule).length = (ruleConds rule).length then
      { s with
        conclusions := s.conclusions ++ [ruleConcl rule],
        explanation := s.explanation ++
          ["Rule R" ++ toString rule.id ++ ": If " ++
            String.intercalate ", " (ruleConds rule) ++ " → " ++
            ruleConcl rule ++ " fired (all conditions matched)."] }
    else if !(ruleMatched facts_set rule).isEmpty then
      { s with
        part := updateBest s.part (ruleConcl rule) (rulePct facts_set rule) }
    else s

/-- The condition under which a rule reaches the `elif matched:` branch,
i.e. contributes a partial match: well-formed, not fully matched, and at
least one condition matched. -/
def isPartialHit (facts_set : List String) (r : IRule) : Bool :=
  !((ruleConds r).isEmpty || decide (ruleConcl r = "")) &&
  !decide ((ruleMatched facts_set r).length = (ruleConds r).length) &&
  !(ruleMatched facts_set r).isEmpty

/-- The effect of one loop iteration on the `partial` dict alone. -/
def partStep (facts_set : List String) (m : List (String × ℚ)) (r : IRule) :
    List (String × ℚ) :=
  if isPartialHit facts_set r then
    updateBest m (ruleConcl r) (rulePct facts_set r)
  else m

/-- The `partial` dict accumulated over a rule list. -/
def partFold (facts_set : List String) (kb : List IRule) (m : List (String × ℚ)) :
    List (String × ℚ) :=
  kb.foldl (partStep facts_set) m

/-- Maximum on optional percentages. -/
def oMax : Option ℚ → Option ℚ → Option ℚ
  | none, o => o
  | some p, none => some p
  | some p, some q => some (max p q)

/-- The best (maximal) percentage over the rules of `kb` that partially
match and conclude `c`; `none` when no rule does. -/
def bestPct (facts_set : List String) (c : String) : List IRule → Option ℚ
  | [] => none
  | r :: rs =>
    if isPartialHit facts_set r && (ruleConcl r == c) then
      oMax (some (rulePct facts_set r)) (bestPct facts_set c rs)
    else bestPct facts_set c rs

/-- The keys of an association list (Python dict key view). -/
def keysOf (m : List (String × ℚ)) : List String :=
  m.map Prod.fst

/-- The final `# deduplicate conclusions while keeping order` loop. -/
def dedupFirstAux (seen : List String) : List String → List String
  | [] => []
  | c :: cs =>
    if seen.contains c then dedupFirstAux seen cs
    else c :: dedupFirstAux (c :: seen) cs

/-- `inference_engine.infer_with_explanation`.  The `partial` dict is
sorted by percent descending (`key=lambda x: -x[1]` with Python's stable
sort, modelled by the stable `insertionSort`).  The source binds the loop
state once; here the fold is repeated per field, which is identical since
everything is pure. -/
def infer_with_explanation (kb : List IRule) (facts : List String) : InferResult :=
  { conclusions :=
      dedupFirstAux [] (kb.foldl (inferStep (facts.map pyTitle)) ⟨[], [], []⟩).conclusions,
    part :=
      (kb.foldl (inferStep (facts.map pyTitle)) ⟨[], [], []⟩).part.insertionSort
        (fun a b => b.2 ≤ a.2),
    explanation := (kb.foldl (inferStep (facts.map pyTitle)) ⟨[], [], []⟩).explanation }

/-! ## Lemmas about the forward-chaining loop -/

/-- The conclusion terms of a rule list. -/
def thens (rules : List SRule) : List String :=
  rules.map (fun r => r.«then»)

/-- Termination measure: the number of distinct conclusion terms not yet
in the working fact set. -/
def mu (rules : List SRule) (facts : List String) : Nat :=
  ((thens rules).dedup.filter (fun t => !facts.contains t)).length

lemma mu_le (rules : List SRule) (facts : List String) : mu rules facts ≤ rules.length := by
  calc ((thens rules).dedup.filter (fun t => !facts.contains t)).length
      ≤ (thens rules).dedup.length := List.length_filter_le _ _
    _ ≤ (thens rules).length := (List.dedup_sublist _).length_le
    _ = rules.length := by simp [thens]

/-- A single `fcStep` either leaves the state unchanged or appends the
rule's conclusion (which was not yet a fact) and sets `changed`. -/
lemma fcStep_cases (s : List String × List String × Bool) (r : SRule) :
    fcStep s r = s ∨
      (fcStep s r = (s.1 ++ [r.«then»], s.2.1 ++ [r.«then»], true) ∧ r.«then» ∉ s.1) := by
  unfold fcStep
  by_cases h : (r.«if».all (fun c => s.1.contains c) && !s.1.contains r.«then») = true
  · right
    refine ⟨by rw [if_pos h], ?_⟩
    have h2 := (Bool.and_eq_true _ _).mp h |>.2
    simpa using h2
  · left
    rw [if_neg h]

/-- Decomposition of one pass (or a tail of one): the fold appends a
block `ext` of new facts to both the fact list and the conclusion list,
every element of `ext` is some rule's conclusion, none was already a
fact, the elements are pairwise distinct, and `changed` ends up true
exactly when the block is non-empty (or was already true). -/
lemma fcFold_spec (rules : List SRule) :
    ∀ (facts concls : List String) (changed : Bool),
      ∃ ext : List String,
        rules.foldl fcStep (facts, concls, changed)
            = (facts ++ ext, concls ++ ext, changed || !ext.isEmpty)
          ∧ (∀ x ∈ ext, ∃ r ∈ rules, x = r.«then»)
          ∧ (∀ x ∈ ext, x ∉ facts)
          ∧ ext.Nodup := by
  induction rules with
  | nil =>
    intro facts concls changed
    exact ⟨[], by simp, by simp, by simp, by simp⟩
  | cons r rs ih =>
    intro facts concls changed
    rw [List.foldl_cons]
    rcases fcStep_cases (facts, concls, changed) r with h | ⟨h, hmem⟩
    · rw [h]
      obtain ⟨ext, he, hth, hnm, hnd⟩ := ih facts concls changed
      exact ⟨ext, he,
        fun x hx => by obtain ⟨r', hr', hx'⟩ := hth x hx; exact ⟨r', List.mem_cons_of_mem _ hr', hx'⟩,
        hnm, hnd⟩
    · rw [h]
      obtain ⟨ext, he, hth, hnm, hnd⟩ := ih (facts ++ [r.«then»]) (concls ++ [r.«then»]) true
      refine ⟨r.«then» :: ext, ?_, ?_, ?_, ?_⟩
      · rw [he]; simp
      · intro x hx
        rcases List.mem_cons.mp hx with rfl | hx'
        · exact ⟨r, List.mem_cons_self _ _, rfl⟩
        · obtain ⟨r', hr', hx''⟩ := hth x hx'
          exact ⟨r', List.mem_cons_of_mem _ hr', hx''⟩
      · intro x hx
        rcases List.mem_cons.mp hx with rfl | hx'
        · exact hmem
        · intro hc
          exact hnm x hx' (List.mem_append_left _ hc)
      · refine List.nodup_cons.mpr ⟨?_, hnd⟩
        intro hc
        exact hnm _ hc (List.mem_append_right _ (List.mem_singleton.mpr rfl))

/-- Each changing pass strictly decreases the measure `mu`. -/
lemma mu_lt_of_ext (rules : List SRule) (facts ext : List String)
    (hth : ∀ x ∈ ext, ∃ r ∈ rules, x = r.«then»)
    (hnm : ∀ x ∈ ext, x ∉ facts) (hne : ext ≠ []) :
    mu rules (facts ++ ext) < mu rules facts := by
  obtain ⟨y, hy⟩ := List.exists_mem_of_ne_nil ext hne
  have himp : ∀ t : String,
      (!(facts ++ ext).contains t) = true → (!facts.contains t) = true := by
    intro t ht
    have h1 : t ∉ facts ++ ext := by simpa using ht
    have h2 : t ∉ facts := fun hc => h1 (List.mem_append_left _ hc)
    simpa using h2
  have hsub : List.Sublist ((thens rules).dedup.filter (fun t => !(facts ++ ext).contains t))
      ((thens rules).dedup.filter (fun t => !facts.contains t)) :=
    List.monotone_filter_right _ himp
  rcases Nat.lt_or_ge (mu rules (facts ++ ext)) (mu rules facts) with h | h
  · exact h
  · exfalso
    have heq : ((thens rules).dedup.filter (fun t => !(facts ++ ext).contains t))
        = ((thens rules).dedup.filter (fun t => !facts.contains t)) :=
      hsub.eq_of_length (Nat.le_antisymm hsub.length_le h)
    have hyin : y ∈ (thens rules).dedup.filter (fun t => !facts.contains t) := by
      refine List.mem_filter.mpr ⟨?_, ?_⟩
      · obtain ⟨r', hr', rfl⟩ := hth y hy
        exact List.mem_dedup.mpr (List.mem_map.mpr ⟨r', hr', rfl⟩)
      · simpa using hnm y hy
    have hyout : y ∉ (thens rules).dedup.filter (fun t => !(facts ++ ext).contains t) := by
      intro hc
      have h4 : y ∉ facts ++ ext := by simpa using (List.mem_filter.mp hc).2
      exact h4 (List.mem_append_right _ hy)
    rw [heq] at hyout
    exact hyout hyin

/-- With enough fuel the loop reaches a fixpoint: the returned state is
unchanged by a further pass, and the final facts extend the initial ones
by a block of distinct conclusion terms none of which was already a fact. -/
lemma fcLoop_spec (rules : List SRule) :
    ∀ (fuel : Nat) (facts concls : List String), mu rules facts < fuel →
      ∃ ext : List String,
        fcLoop rules fuel facts concls = (facts ++ ext, concls ++ ext)
          ∧ (∀ x ∈ ext, ∃ r ∈ rules, x = r.«then»)
          ∧ (∀ x ∈ ext, x ∉ facts)
          ∧ ext.Nodup
          ∧ rules.foldl fcStep (facts ++ ext, concls ++ ext, false)
              = (facts ++ ext, concls ++ ext, false) := by
  intro fuel
  induction fuel with
  | zero =>
    intro facts concls h
    exact absurd h (Nat.not_lt_zero _)
  | succ n ih =>
    intro facts concls h
    obtain ⟨ext, he, hth, hnm, hnd⟩ := fcFold_spec rules facts concls false
    by_cases hne : ext = []
    · subst hne
      refine ⟨[], ?_, by simp, by simp, by simp, ?_⟩
      · simp only [fcLoop, fcPass, he]
        simp
      · simpa using he
    · have hch : (false || !ext.isEmpty) = true := by
        simp [List.isEmpty_iff, hne]
      have hmu : mu rules (facts ++ ext) < n := by
        have hlt := mu_lt_of_ext rules facts ext hth hnm hne
        omega
      obtain ⟨ext2, he2, hth2, hnm2, hnd2, hfix2⟩ := ih (facts ++ ext) (concls ++ ext) hmu
      refine ⟨ext ++ ext2, ?_, ?_, ?_, ?_, ?_⟩
      · simp only [fcLoop, fcPass, he, hch, if_true]
        rw [he2]
        simp [List.append_assoc]
      · intro x hx
        rcases List.mem_append.mp hx with hx' | hx'
        · exact hth x hx'
        · exact hth2 x hx'
      · intro x hx
        rcases List.mem_append.mp hx with hx' | hx'
        · exact hnm x hx'
        · exact fun hc => hnm2 x hx' (List.mem_append_left _ hc)
      · refine List.nodup_append.mpr ⟨hnd, hnd2, ?_⟩
        intro a ha hc
        exact hnm2 a hc (List.mem_append_right _ ha)
      · rw [← List.append_assoc, ← List.append_assoc]
        exact hfix2

/-- Any two sufficient fuels compute the same final state: the fuelled
loop is fuel-independent once past the measure bound, i.e. the unbounded
`while changed` loop terminates with this very state. -/
lemma fcLoop_fuel_irrel (rules : List SRule) :
    ∀ (f1 f2 : Nat) (facts concls : List String),
      mu rules facts < f1 → mu rules facts < f2 →
      fcLoop rules f1 facts concls = fcLoop rules f2 facts concls := by
  intro f1
  induction f1 with
  | zero =>
    intro f2 facts concls h1
    exact absurd h1 (Nat.not_lt_zero _)
  | succ n ih =>
    intro f2 facts concls h1 h2
    cases f2 with
    | zero => exact absurd h2 (Nat.not_lt_zero _)
    | succ m =>
      obtain ⟨ext, he, hth, hnm, hnd⟩ := fcFold_spec rules facts concls false
      by_cases hne : ext = []
      · subst hne
        simp only [fcLoop, fcPass, he]
        simp
      · have hch : (false || !ext.isEmpty) = true := by
          simp [List.isEmpty_iff, hne]
        have hlt := mu_lt_of_ext rules facts ext hth hnm hne
        simp only [fcLoop, fcPass, he, hch, if_true]
        exact ih m (facts ++ ext) (concls ++ ext) (by omega) (by omega)

/-- A state unchanged by a full pass is closed under the rules: every
rule whose conditions all hold has its conclusion among the facts. -/
lemma closure_of_fix (rules : List SRule) :
    ∀ (F C : List String),
      rules.foldl fcStep (F, C, false) = (F, C, false) →
      ∀ r ∈ rules, (∀ c ∈ r.«if», c ∈ F) → r.«then» ∈ F := by
  induction rules with
  | nil =>
    intro F C _ r hr
    exact absurd hr (List.not_mem_nil _)
  | cons r0 rs ih =>
    intro F C hfix r hr hc
    rw [List.foldl_cons] at hfix
    by_cases hg : (r0.«if».all (fun c => F.contains c) && !F.contains r0.«then») = true
    · exfalso
      have hstep : fcStep (F, C, false) r0
          = (F ++ [r0.«then»], C ++ [r0.«then»], true) := by
        unfold fcStep
        rw [if_pos hg]
      rw [hstep] at hfix
      obtain ⟨ext, he, _, _, _⟩ := fcFold_spec rs (F ++ [r0.«then»]) (C ++ [r0.«then»]) true
      rw [he] at hfix
      have : (true || !ext.isEmpty) = false := congrArg (fun p => p.2.2) hfix
      simp at this
    · have hstep : fcStep (F, C, false) r0 = (F, C, false) := by
        unfold fcStep
        rw [if_neg hg]
      rw [hstep] at hfix
      rcases List.mem_cons.mp hr with rfl | hr'
      · have hall : r.«if».all (fun c => F.contains c) = true := by
          rw [List.all_eq_true]
          intro c hcm
          simpa using hc c hcm
        cases hthen : F.contains r.«then» with
        | true => simpa using hthen
        | false =>
          exfalso
          apply hg
          rw [hall, hthen]
          rfl
      · exact ih F C hfix r hr' hc

/-- The final state of `forward_chain`: the initial facts extended by a
block of distinct conclusion terms (which is also the conclusion list),
and that state is a fixpoint of a full pass. -/
lemma forwardChainState_spec (rules : List SRule) (facts : List String) :
    ∃ ext : List String,
      forwardChainState rules facts = (facts ++ ext, ext)
        ∧ (∀ x ∈ ext, ∃ r ∈ rules, x = r.«then»)
        ∧ (∀ x ∈ ext, x ∉ facts)
        ∧ ext.Nodup
        ∧ rules.foldl fcStep (facts ++ ext, ext, false) = (facts ++ ext, ext, false) := by
  have h := fcLoop_spec rules (rules.length + 1) facts []
    (by have := mu_le rules facts; omega)
  simpa [forwardChainState] using h

/-! ## Lemmas about `infer_with_explanation` -/

lemma pyTitleAux_length (b : Bool) (l : List Char) : (pyTitleAux b l).length = l.length := by
  induction l generalizing b with
  | nil => rfl
  | cons c cs ih =>
    unfold pyTitleAux
    by_cases h : c.isAlpha = true
    · simp [h, ih]
    · simp [h, ih]

lemma string_eq_empty_of_data (s : String) (h : s.data = []) : s = "" := by
  cases s with
  | mk d => cases h; rfl

lemma pyTitle_empty_iff (s : String) : pyTitle s = "" ↔ s = "" := by
  constructor
  · intro h
    have hl : (pyTitleAux false s.data).length = 0 := by
      have h2 : (pyTitle s).data = ("" : String).data := by rw [h]
      simpa [pyTitle] using congrArg List.length h2
    rw [pyTitleAux_length] at hl
    exact string_eq_empty_of_data s (List.length_eq_zero.mp hl)
  · intro h
    rw [h]
    rfl

lemma inferStep_skip (fs : List String) (s : InferResult) (r : IRule)
    (h : r.«if» = [] ∨ r.«then» = "") : inferStep fs s r = s := by
  unfold inferStep
  have hg : ((ruleConds r).isEmpty || decide (ruleConcl r = "")) = true := by
    rcases h with h | h
    · simp [ruleConds, h]
    · simp [ruleConcl, pyTitle_empty_iff, h]
  simp only [hg, if_true]

lemma foldl_filter_malformed (fs : List String) :
    ∀ (kb : List IRule) (s : InferResult),
      kb.foldl (inferStep fs) s
        = (kb.filter (fun r => !r.«if».isEmpty && !(r.«then» == ""))).foldl (inferStep fs) s := by
  intro kb
  induction kb with
  | nil => intro s; rfl
  | cons r rs ih =>
    intro s
    by_cases hp : (!r.«if».isEmpty && !(r.«then» == "")) = true
    · rw [List.foldl_cons, List.filter_cons, if_pos hp, List.foldl_cons, ih]
    · have hskip : r.«if» = [] ∨ r.«then» = "" := by
        by_cases h1 : r.«if».isEmpty = true
        · exact Or.inl (List.isEmpty_iff.mp h1)
        · by_cases h2 : r.«then» = ""
          · exact Or.inr h2
          · exact absurd (by simp [h1, h2]) hp
      rw [List.foldl_cons, inferStep_skip fs s r hskip,
        List.filter_cons, if_neg hp, ih]

lemma inferStep_part (fs : List String) (s : InferResult) (r : IRule) :
    (inferStep fs s r).part = partStep fs s.part r := by
  unfold inferStep partStep isPartialHit
  by_cases h1 : ((ruleConds r).isEmpty || decide (ruleConcl r = "")) = true
  · simp [h1]
  · by_cases h2 : (ruleMatched fs r).length = (ruleConds r).length
    · simp [h1, h2]
    · by_cases h3 : (ruleMatched fs r).isEmpty = true
      · simp [h1, h2, h3]
      · simp [h1, h2, h3]

lemma foldl_part (fs : List String) :
    ∀ (kb : List IRule) (s : InferResult),
      (kb.foldl (inferStep fs) s).part = partFold fs kb s.part := by
  intro kb
  induction kb with
  | nil => intro s; rfl
  | cons r rs ih =>
    intro s
    rw [List.foldl_cons, ih, inferStep_part]
    rfl

lemma lookupQ_eq_none_iff (m : List (String × ℚ)) (c : String) :
    lookupQ m c = none ↔ c ∉ keysOf m := by
  induction m with
  | nil => simp [lookupQ, keysOf]
  | cons kv rest ih =>
    obtain ⟨k, v⟩ := kv
    by_cases h : k = c
    · subst h
      simp [lookupQ, keysOf]
    · simp [lookupQ, h, keysOf, ih, Ne.symm h]

lemma lookupQ_setQ (m : List (String × ℚ)) (k : String) (v : ℚ) (c : String) :
    lookupQ (setQ m k v) c = if c = k then some v else lookupQ m c := by
  induction m with
  | nil =>
    by_cases h : c = k
    · subst h; simp [setQ, lookupQ]
    · simp [setQ, lookupQ, h, Ne.symm h]
  | cons kv rest ih =>
    obtain ⟨k', v'⟩ := kv
    by_cases h1 : k' = k
    · subst h1
      by_cases h2 : c = k'
      · subst h2; simp [setQ, lookupQ]
      · simp [setQ, lookupQ, h2, Ne.symm h2]
    · by_cases h2 : k' = c
      · subst h2
        simp [setQ, lookupQ, h1, Ne.symm h1, ih]
      · simp [setQ, lookupQ, h1, h2, ih]

lemma setQ_of_absent (m : List (String × ℚ)) (k : String) (v : ℚ)
    (h : lookupQ m k = none) : setQ m k v = m ++ [(k, v)] := by
  induction m with
  | nil => rfl
  | cons kv rest ih =>
    obtain ⟨k', v'⟩ := kv
    by_cases h1 : k' = k
    · subst h1; simp [lookupQ] at h
    · simp only [lookupQ, h1, if_neg] at h
      simp [setQ, h1, ih h]

lemma keysOf_setQ_present (m : List (String × ℚ)) (k : String) (v : ℚ) :
    (∃ p, lookupQ m k = some p) → keysOf (setQ m k v) = keysOf m := by
  induction m with
  | nil => rintro ⟨p, hp⟩; simp [lookupQ] at hp
  | cons kv rest ih =>
    obtain ⟨k', v'⟩ := kv
    rintro ⟨p, hp⟩
    by_cases h1 : k' = k
    · subst h1; simp [setQ, keysOf]
    · have hp' : lookupQ rest k = some p := by simpa [lookupQ, h1] using hp
      have hs : setQ ((k', v') :: rest) k v = (k', v') :: setQ rest k v := by
        simp [setQ, h1]
      rw [hs]
      show k' :: keysOf (setQ rest k v) = k' :: keysOf rest
      rw [ih ⟨p, hp'⟩]

lemma lookupQ_updateBest (m : List (String × ℚ)) (c : String) (p : ℚ) (c' : String) :
    lookupQ (updateBest m c p) c' =
      if c' = c then
        some (match lookupQ m c with | none => p | some p0 => max p0 p)
      else lookupQ m c' := by
  unfold updateBest
  cases h : lookupQ m c with
  | none =>
    dsimp only
    rw [lookupQ_setQ]
  | some p0 =>
    dsimp only
    by_cases hlt : p0 < p
    · rw [if_pos hlt, lookupQ_setQ]
      by_cases hc : c' = c
      · subst hc; simp [max_eq_right (le_of_lt hlt)]
      · simp [hc]
    · rw [if_neg hlt]
      by_cases hc : c' = c
      · subst hc
        rw [if_pos rfl, h, max_eq_left (le_of_not_lt hlt)]
      · rw [if_neg hc]

lemma keysOf_updateBest_nodup (m : List (String × ℚ)) (c : String) (p : ℚ)
    (hn : (keysOf m).Nodup) : (keysOf (updateBest m c p)).Nodup := by
  unfold updateBest
  cases h : lookupQ m c with
  | none =>
    dsimp only
    rw [setQ_of_absent m c p h]
    have hcm : c ∉ keysOf m := (lookupQ_eq_none_iff m c).mp h
    have hks : keysOf (m ++ [(c, p)]) = keysOf m ++ [c] := by simp [keysOf]
    rw [hks, List.nodup_append]
    refine ⟨hn, List.nodup_singleton c, ?_⟩
    intro a ha hb
    rw [List.mem_singleton.mp hb] at ha
    exact hcm ha
  | some p0 =>
    dsimp only
    by_cases hlt : p0 < p
    · rw [if_pos hlt, keysOf_setQ_present m c p ⟨p0, h⟩]
      exact hn
    · rw [if_neg hlt]
      exact hn

lemma mem_iff_lookupQ (m : List (String × ℚ)) (hn : (keysOf m).Nodup)
    (c : String) (p : ℚ) : (c, p) ∈ m ↔ lookupQ m c = some p := by
  induction m with
  | nil => simp [lookupQ]
  | cons kv rest ih =>
    obtain ⟨k, v⟩ := kv
    have hn' : (keysOf rest).Nodup := (List.nodup_cons.mp (by simpa [keysOf] using hn)).2
    have hk : k ∉ keysOf rest := (List.nodup_cons.mp (by simpa [keysOf] using hn)).1
    by_cases h1 : k = c
    · subst h1
      simp only [lookupQ, if_pos rfl]
      constructor
      · intro hm
        rcases List.mem_cons.mp hm with heq | hm'
        · cases heq; rfl
        · exfalso
          exact hk (by simpa [keysOf] using List.mem_map_of_mem Prod.fst hm')
      · intro hs
        cases hs
        exact List.mem_cons_self _ _
    · have hL : lookupQ ((k, v) :: rest) c = lookupQ rest c := by simp [lookupQ, h1]
      rw [hL, ← ih hn']
      constructor
      · intro hm
        rcases List.mem_cons.mp hm with heq | hm'
        · cases heq; exact absurd rfl h1
        · exact hm'
      · intro hm
        exact List.mem_cons_of_mem _ hm

lemma oMax_none_right (o : Option ℚ) : oMax o none = o := by
  cases o <;> rfl

lemma oMax_assoc (a b c : Option ℚ) : oMax (oMax a b) c = oMax a (oMax b c) := by
  cases a <;> cases b <;> cases c <;> simp [oMax, max_assoc]

lemma lookupQ_partStep (fs : List String) (m : List (String × ℚ)) (r : IRule) (c : String) :
    lookupQ (partStep fs m r) c =
      if isPartialHit fs r && (ruleConcl r == c) then
        oMax (lookupQ m c) (some (rulePct fs r))
      else lookupQ m c := by
  unfold partStep
  by_cases hh : isPartialHit fs r = true
  · rw [if_pos hh]
    by_cases hc : ruleConcl r = c
    · subst hc
      rw [lookupQ_updateBest]
      have hb : (isPartialHit fs r && (ruleConcl r == ruleConcl r)) = true := by simp [hh]
      rw [if_pos rfl, if_pos hb]
      cases lookupQ m (ruleConcl r) with
      | none => rfl
      | some p0 => simp [oMax]
    · have hb : (isPartialHit fs r && (ruleConcl r == c)) = false := by simp [hc]
      rw [lookupQ_updateBest, if_neg (Ne.symm hc), hb]
      simp
  · have hb : (isPartialHit fs r && (ruleConcl r == c)) = false := by simp [hh]
    rw [if_neg hh, hb]
    simp

lemma lookupQ_partFold (fs : List String) :
    ∀ (kb : List IRule) (m : List (String × ℚ)) (c : String),
      lookupQ (partFold fs kb m) c = oMax (lookupQ m c) (bestPct fs c kb) := by
  intro kb
  induction kb with
  | nil =>
    intro m c
    simp [partFold, bestPct, oMax_none_right]
  | cons r rs ih =>
    intro m c
    have h1 : partFold fs (r :: rs) m = partFold fs rs (partStep fs m r) := rfl
    have h2 : bestPct fs c (r :: rs)
        = if (isPartialHit fs r && (ruleConcl r == c)) = true then
            oMax (some (rulePct fs r)) (bestPct fs c rs)
          else bestPct fs c rs := rfl
    rw [h1, ih, lookupQ_partStep, h2]
    by_cases hg : (isPartialHit fs r && (ruleConcl r == c)) = true
    · rw [if_pos hg, if_pos hg, oMax_assoc]
    · rw [if_neg hg, if_neg hg]

lemma keysOf_partFold_nodup (fs : List String) :
    ∀ (kb : List IRule) (m : List (String × ℚ)),
      (keysOf m).Nodup → (keysOf (partFold fs kb m)).Nodup := by
  intro kb
  induction kb with
  | nil => intro m h; exact h
  | cons r rs ih =>
    intro m h
    have h1 : partFold fs (r :: rs) m = partFold fs rs (partStep fs m r) := rfl
    rw [h1]
    apply ih
    unfold partStep
    by_cases hh : isPartialHit fs r = true
    · rw [if_pos hh]
      exact keysOf_updateBest_nodup _ _ _ h
    · rw [if_neg hh]
      exact h

lemma bestPct_attained (fs : List String) (c : String) :
    ∀ (kb : List IRule) (p : ℚ), bestPct fs c kb = some p →
      ∃ r ∈ kb, isPartialHit fs r = true ∧ ruleConcl r = c ∧ rulePct fs r = p := by
  intro kb
  induction kb with
  | nil => intro p h; simp [bestPct] at h
  | cons r rs ih =>
    intro p h
    unfold bestPct at h
    by_cases hg : (isPartialHit fs r && (ruleConcl r == c)) = true
    · rw [if_pos hg] at h
      have hhit : isPartialHit fs r = true := (Bool.and_eq_true _ _).mp hg |>.1
      have hcon : ruleConcl r = c := by
        have := (Bool.and_eq_true _ _).mp hg |>.2
        simpa using this
      cases hb : bestPct fs c rs with
      | none =>
        rw [hb] at h
        simp [oMax] at h
        exact ⟨r, List.mem_cons_self _ _, hhit, hcon, h⟩
      | some q =>
        rw [hb] at h
        simp only [oMax, Option.some.injEq] at h
        rcases max_choice (rulePct fs r) q with hm | hm
        · exact ⟨r, List.mem_cons_self _ _, hhit, hcon, by rw [← h, hm]⟩
        · obtain ⟨r', hr', h1, h2, h3⟩ := ih q hb
          exact ⟨r', List.mem_cons_of_mem _ hr', h1, h2, by rw [h3, ← h, hm]⟩
    · rw [if_neg hg] at h
      obtain ⟨r', hr', h1, h2, h3⟩ := ih p h
      exact ⟨r', List.mem_cons_of_mem _ hr', h1, h2, h3⟩

lemma bestPct_isSome_of_mem (fs : List String) :
    ∀ (kb : List IRule) (r : IRule), r ∈ kb → isPartialHit fs r = true →
      ∃ p, bestPct fs (ruleConcl r) kb = some p := by
  intro kb
  induction kb with
  | nil => intro r hr; exact absurd hr (List.not_mem_nil _)
  | cons r0 rs ih =>
    intro r hr hhit
    unfold bestPct
    rcases List.mem_cons.mp hr with rfl | hr'
    · rw [if_pos (by simp [hhit])]
      cases bestPct fs (ruleConcl r) rs with
      | none => exact ⟨rulePct fs r, rfl⟩
      | some q => exact ⟨max (rulePct fs r) q, rfl⟩
    · by_cases hg : (isPartialHit fs r0 && (ruleConcl r0 == ruleConcl r)) = true
      · rw [if_pos hg]
        obtain ⟨p, hp⟩ := ih r hr' hhit
        rw [hp]
        exact ⟨max (rulePct fs r0) p, rfl⟩
      · rw [if_neg hg]
        exact ih r hr' hhit

lemma bestPct_bound (fs : List String) (c : String) :
    ∀ (kb : List IRule) (p : ℚ), bestPct fs c kb = some p →
      ∀ r ∈ kb, isPartialHit fs r = true → ruleConcl r = c → rulePct fs r ≤ p := by
  intro kb
  induction kb with
  | nil => intro p _ r hr; exact absurd hr (List.not_mem_nil _)
  | cons r0 rs ih =>
    intro p h r hr hhit hcon
    unfold bestPct at h
    rcases List.mem_cons.mp hr with rfl | hr'
    · rw [if_pos (by simp [hhit, hcon])] at h
      cases hb : bestPct fs c rs with
      | none =>
        rw [hb] at h
        simp only [oMax, Option.some.injEq] at h
        rw [h]
      | some q =>
        rw [hb] at h
        simp only [oMax, Option.some.injEq] at h
        rw [← h]
        exact le_max_left _ _
    · by_cases hg : (isPartialHit fs r0 && (ruleConcl r0 == c)) = true
      · rw [if_pos hg] at h
        cases hb : bestPct fs c rs with
        | none =>
          exfalso
          obtain ⟨q, hq⟩ := bestPct_isSome_of_mem fs rs r hr' hhit
          rw [hcon] at hq
          rw [hq] at hb
          cases hb
        | some q =>
          rw [hb] at h
          simp only [oMax, Option.some.injEq] at h
          have hle : rulePct fs r ≤ q := ih q hb r hr' hhit hcon
          calc rulePct fs r ≤ q := hle
            _ ≤ max (rulePct fs r0) q := le_max_right _ _
            _ = p := h
      · rw [if_neg hg] at h
        exact ih p h r hr' hhit hcon

lemma infer_part_eq (kb : List IRule) (facts : List String) :
    (infer_with_explanation kb facts).part
      = (partFold (facts.map pyTitle) kb []).insertionSort (fun a b => b.2 ≤ a.2) := by
  unfold infer_with_explanation
  rw [foldl_part]

/-! ## Lemmas about `is_valid_term` -/

lemma mem_dropWhile_of_mem (p : Char → Bool) (a : Char) :
    ∀ l : List Char, a ∈ l → ¬ p a = true → a ∈ l.dropWhile p := by
  intro l
  induction l with
  | nil => intro hm; cases hm
  | cons x xs ih =>
    intro hm hp
    rw [List.dropWhile]
    cases hx : p x with
    | true =>
      simp only [hx]
      rcases List.mem_cons.mp hm with rfl | hm'
      · exact absurd hx hp
      · exact ih hm' hp
    | false => simpa [hx] using hm

lemma mem_of_mem_dropWhile (p : Char → Bool) (a : Char) :
    ∀ l : List Char, a ∈ l.dropWhile p → a ∈ l := by
  intro l
  induction l with
  | nil => intro hm; cases hm
  | cons x xs ih =>
    intro hm
    rw [List.dropWhile] at hm
    cases hx : p x with
    | true =>
      rw [hx] at hm
      exact List.mem_cons_of_mem _ (ih hm)
    | false =>
      rw [hx] at hm
      exact hm

lemma mem_pyStrip (s : String) (a : Char) (ha : a ∈ s.data)
    (hsp : ¬ isPySpace a = true) : a ∈ (pyStrip s).data := by
  show a ∈ ((s.data.dropWhile isPySpace).reverse.dropWhile isPySpace).reverse
  rw [List.mem_reverse]
  apply mem_dropWhile_of_mem _ _ _ _ hsp
  rw [List.mem_reverse]
  exact mem_dropWhile_of_mem _ _ _ ha hsp

lemma mem_of_mem_pyStrip (s : String) (a : Char) (ha : a ∈ (pyStrip s).data) :
    a ∈ s.data := by
  have h1 : a ∈ ((s.data.dropWhile isPySpace).reverse.dropWhile isPySpace).reverse := ha
  rw [List.mem_reverse] at h1
  have h2 := mem_of_mem_dropWhile _ _ _ h1
  rw [List.mem_reverse] at h2
  exact mem_of_mem_dropWhile _ _ _ h2

lemma not_pySpace_of_alpha (a : Char) (h : a.isAlpha = true) : isPySpace a = false := by
  cases hx : isPySpace a with
  | false => rfl
  | true =>
    exfalso
    have hsp : a = ' ' ∨ a = '\t' ∨ a = '\n' ∨ a = '\r' ∨ a.val = 11 ∨ a.val = 12 := by
      simpa [isPySpace, or_assoc] using hx
    rcases hsp with rfl | rfl | rfl | rfl | hv | hv
    · exact absurd h (by decide)
    · exact absurd h (by decide)
    · exact absurd h (by decide)
    · exact absurd h (by decide)
    · unfold Char.isAlpha Char.isUpper Char.isLower at h
      rw [hv] at h
      simp at h
    · unfold Char.isAlpha Char.isUpper Char.isLower at h
      rw [hv] at h
      simp at h

lemma ne_space_of_not_pySpace (c : Char) (h : isPySpace c = false) : c ≠ ' ' := by
  intro hc
  rw [hc] at h
  simp [isPySpace] at h

lemma triple_dropWhile (p : Char → Bool) (a : Char) (hp : p a = false) :
    ∀ l1 l2 : List Char, ∃ m1 m2,
      (l1 ++ [a, a, a] ++ l2).dropWhile p = m1 ++ [a, a, a] ++ m2 := by
  intro l1
  induction l1 with
  | nil =>
    intro l2
    refine ⟨[], l2, ?_⟩
    show ([a, a, a] ++ l2).dropWhile p = [] ++ [a, a, a] ++ l2
    simp [List.dropWhile_cons, hp]
  | cons x l1' ih =>
    intro l2
    cases hx : p x with
    | true =>
      have he : ((x :: l1') ++ [a, a, a] ++ l2).dropWhile p
          = (l1' ++ [a, a, a] ++ l2).dropWhile p := by
        simp [List.dropWhile_cons, hx]
      rw [he]
      exact ih l2
    | false =>
      refine ⟨x :: l1', l2, ?_⟩
      simp [List.dropWhile_cons, hx]

lemma triple_reverse (a : Char) (l : List Char)
    (h : ∃ m1 m2, l = m1 ++ [a, a, a] ++ m2) :
    ∃ m1 m2, l.reverse = m1 ++ [a, a, a] ++ m2 := by
  obtain ⟨m1, m2, rfl⟩ := h
  refine ⟨m2.reverse, m1.reverse, ?_⟩
  simp

lemma triple_filter (q : Char → Bool) (a : Char) (hq : q a = true) (l : List Char)
    (h : ∃ m1 m2, l = m1 ++ [a, a, a] ++ m2) :
    ∃ m1 m2, l.filter q = m1 ++ [a, a, a] ++ m2 := by
  obtain ⟨m1, m2, rfl⟩ := h
  refine ⟨m1.filter q, m2.filter q, ?_⟩
  simp [List.filter_append, hq]

lemma triple_pyStrip (a : Char) (s : String) (hsp : isPySpace a = false)
    (h : ∃ m1 m2, s.data = m1 ++ [a, a, a] ++ m2) :
    ∃ m1 m2, (pyStrip s).data = m1 ++ [a, a, a] ++ m2 := by
  obtain ⟨m1, m2, hd⟩ := h
  have h1 : ∃ n1 n2, s.data.dropWhile isPySpace = n1 ++ [a, a, a] ++ n2 := by
    rw [hd]
    exact triple_dropWhile isPySpace a hsp m1 m2
  have h2 := triple_reverse a _ h1
  obtain ⟨n1, n2, hd2⟩ := h2
  have h3 : ∃ k1 k2, (s.data.dropWhile isPySpace).reverse.dropWhile isPySpace
      = k1 ++ [a, a, a] ++ k2 := by
    rw [hd2]
    exact triple_dropWhile isPySpace a hsp n1 n2
  exact triple_reverse a _ h3

lemma hasRun3_cons_of (x : Char) (l : List Char) (h : hasRun3 l = true) :
    hasRun3 (x :: l) = true := by
  match l with
  | [] => simp [hasRun3] at h
  | [b] => simp [hasRun3] at h
  | b :: c :: r => simp [hasRun3, h]

lemma hasRun3_of_triple (a : Char) : ∀ l1 l2 : List Char,
    hasRun3 (l1 ++ [a, a, a] ++ l2) = true := by
  intro l1
  induction l1 with
  | nil =>
    intro l2
    show hasRun3 (a :: a :: a :: l2) = true
    simp [hasRun3]
  | cons x l1' ih =>
    intro l2
    exact hasRun3_cons_of x _ (ih l2)

/-! ## Concrete percentage evaluations -/

lemma pctOf_one_half : pctOf 1 2 = 50 := by
  unfold pctOf round2 roundHalfEven
  norm_num

lemma pctOf_one_tenth : pctOf 1 10 = 10 := by
  unfold pctOf round2 roundHalfEven
  norm_num

lemma pctOf_one_third : pctOf 1 3 = 3333 / 100 := by
  have h : ((1 : Nat) : ℚ) / ((3 : Nat) : ℚ) * 100 * 100 = 10000 / 3 := by
    push_cast
    norm_num
  have hf : ⌊(10000 : ℚ) / 3⌋ = 3333 := by
    rw [Int.floor_eq_iff]
    constructor <;> norm_num
  unfold pctOf round2 roundHalfEven
  rw [h, hf]
  norm_num

/-! ## Claim theorems -/

/-- Claim C1 (amended): `streamlit_app.forward_chain` implements the
pass-until-fixpoint algorithm — at termination the working fact set is
closed under the rules, so a rule whose conditions become satisfied only
via conclusions derived by earlier-fired rules still fires (its
conclusion is among the final facts).  (`infer_with_explanation`, by
contrast, performs a single pass and does not chain; see the
counterexample.) -/
theorem forward_chain_closed_fixpoint (rules : List SRule) (facts : List String) (r : SRule)
    (hr : r ∈ rules) (hc : ∀ c ∈ r.«if», c ∈ (forwardChainState rules facts).1) :
    r.«then» ∈ (forwardChainState rules facts).1 := by
  obtain ⟨ext, he, _, _, _, hfix⟩ := forwardChainState_spec rules facts
  rw [he] at hc ⊢
  exact closure_of_fix rules _ _ hfix r hr hc

/-- Claim C1, witness: with rules `aa → bb` and `bb → cc` and fact `aa`,
the second rule (whose condition `bb` is only derived by the first)
fires: `cc` is among the final facts. -/
theorem forward_chain_closed_fixpoint_witness :
    "cc" ∈ (forwardChainState [⟨["aa"], "bb"⟩, ⟨["bb"], "cc"⟩] ["aa"]).1 :=
  forward_chain_closed_fixpoint [⟨["aa"], "bb"⟩, ⟨["bb"], "cc"⟩] ["aa"]
    ⟨["bb"], "cc"⟩ (by decide) (by decide)

/-- Claim C1, counterexample to the claim as stated:
`inference_engine.infer_with_explanation` (one of the claim's sources)
performs a single pass and never adds a derived conclusion to the fact
set, so with rules `Aa → Bb` and `Bb → Cc` and fact `Aa` the second rule
does not fire. -/
theorem infer_single_pass_no_chaining :
    (infer_with_explanation [⟨1, ["Aa"], "Bb"⟩, ⟨2, ["Bb"], "Cc"⟩] ["Aa"]).conclusions = ["Bb"]
    ∧ "Cc" ∉ (infer_with_explanation [⟨1, ["Aa"], "Bb"⟩, ⟨2, ["Bb"], "Cc"⟩] ["Aa"]).conclusions :=
  ⟨by decide, by decide⟩

/-- Claim C2 (amended): `infer_with_explanation` skips rules with an
empty condition list or an empty conclusion: the result over any rule
list equals the result over the list with such rules removed, so they
never fire, never contribute a conclusion, partial entry or explanation.
(`forward_chain` has no such guard; see the counterexample.) -/
theorem infer_skips_malformed_rules (kb : List IRule) (facts : List String) :
    infer_with_explanation kb facts
      = infer_with_explanation
          (kb.filter (fun r => !r.«if».isEmpty && !(r.«then» == ""))) facts := by
  unfold infer_with_explanation
  rw [foldl_filter_malformed (facts.map pyTitle) kb]

/-- Claim C2, counterexample to the claim as stated:
`streamlit_app.forward_chain` (one of the claim's sources) does not skip
a rule with an empty condition list — `all` over no conditions is
vacuously true, so the rule fires unconditionally and contributes its
conclusion. -/
theorem forward_chain_fires_empty_rule :
    forward_chain [⟨[], "flu"⟩] [] = ["flu"] := by
  decide

/-- Claim C3 (amended): in the streamlit infer handler, the
partial-match probabilities are displayed only when forward chaining
produced no conclusion: if the handler shows the probability list, the
conclusion set is empty.  (The `infer_with_explanation` result itself
can carry a non-empty `partial` next to non-empty conclusions; see the
counterexample.) -/
theorem probs_shown_only_when_no_conclusions (rules : List SRule) (facts : List String)
    (ps : List Prob) (h : infer_submit rules facts = InferView.probList ps) :
    forward_chain rules facts = [] := by
  unfold infer_submit at h
  by_cases h1 : facts.isEmpty = true
  · rw [if_pos h1] at h
    cases h
  · rw [if_neg h1] at h
    by_cases h2 : (!(forward_chain rules facts).isEmpty) = true
    · rw [if_pos h2] at h
      cases h
    · rw [if_neg h2] at h
      have h3 : (forward_chain rules facts).isEmpty = true := by
        cases hx : (forward_chain rules facts).isEmpty
        · rw [hx] at h2
          simp at h2
        · rfl
      exact List.isEmpty_iff.mp h3

/-- Claim C3, witness: one rule half-matched — the handler shows the
probability list, and indeed the conclusion set is empty. -/
theorem probs_shown_only_when_no_conclusions_witness :
    forward_chain [⟨["aa", "bb"], "cc"⟩] ["aa"] = [] :=
  probs_shown_only_when_no_conclusions [⟨["aa", "bb"], "cc"⟩] ["aa"]
    [⟨"cc", 50⟩] (by decide)

/-- Claim C3, counterexample to the claim as stated: in
`infer_with_explanation` the returned `partial` mapping is populated
per-rule, so it is non-empty even though a different rule fired fully
and the conclusion set is non-empty. -/
theorem infer_partial_alongside_conclusions :
    (infer_with_explanation [⟨1, ["Aa"], "Bb"⟩, ⟨2, ["Aa", "Cc"], "Dd"⟩] ["Aa"]).conclusions ≠ []
    ∧ (infer_with_explanation [⟨1, ["Aa"], "Bb"⟩, ⟨2, ["Aa", "Cc"], "Dd"⟩] ["Aa"]).part ≠ [] :=
  ⟨by decide, by decide⟩

/-- Claim C6: `forward_chain` terminates on every finite rule list and
fact list: any fuel beyond `rules.length + 1` passes computes the same
final state (so the unbounded `while changed` loop stops there), and the
final fact list adds at most `rules.length` facts to the initial ones. -/
theorem forward_chain_terminates (rules : List SRule) (facts : List String) (n : Nat)
    (hn : rules.length + 1 ≤ n) :
    fcLoop rules n facts [] = forwardChainState rules facts
    ∧ (forwardChainState rules facts).1.length ≤ facts.length + rules.length := by
  have hmu : mu rules facts < rules.length + 1 := by
    have := mu_le rules facts
    omega
  constructor
  · exact fcLoop_fuel_irrel rules n (rules.length + 1) facts [] (by omega) hmu
  · obtain ⟨ext, he, hth, hnm, hnd, _⟩ := forwardChainState_spec rules facts
    rw [he]
    have hsub : ext ⊆ thens rules := by
      intro x hx
      obtain ⟨r, hr, rfl⟩ := hth x hx
      exact List.mem_map_of_mem _ hr
    have hlen : ext.length ≤ (thens rules).length := (hnd.subperm hsub).length_le
    have hthl : (thens rules).length = rules.length := by simp [thens]
    simp only [List.length_append]
    omega

/-- Claim C6, witness at a concrete rule set, fact set and fuel. -/
theorem forward_chain_terminates_witness :
    fcLoop [⟨["aa"], "bb"⟩] 7 ["aa"] [] = forwardChainState [⟨["aa"], "bb"⟩] ["aa"]
    ∧ (forwardChainState [⟨["aa"], "bb"⟩] ["aa"]).1.length
        ≤ (["aa"] : List String).length + ([⟨["aa"], "bb"⟩] : List SRule).length :=
  forward_chain_terminates [⟨["aa"], "bb"⟩] ["aa"] 7 (by decide)

/-- Claim C7: monotonicity of forward chaining — every initial fact is
still present in the final working fact set. -/
theorem forward_chain_monotone (rules : List SRule) (facts : List String) (x : String)
    (hx : x ∈ facts) : x ∈ (forwardChainState rules facts).1 := by
  obtain ⟨ext, he, _, _, _, _⟩ := forwardChainState_spec rules facts
  rw [he]
  exact List.mem_append_left _ hx

/-- Claim C7, witness at a concrete rule set and fact set. -/
theorem forward_chain_monotone_witness :
    "aa" ∈ (forwardChainState [⟨["bb"], "cc"⟩] ["aa"]).1 :=
  forward_chain_monotone [⟨["bb"], "cc"⟩] ["aa"] "aa" (by decide)

/-- Claim C9 (amended): the delete handler leaves the rule sequence
unchanged on an out-of-range index — silently, reporting nothing (the
source has no error branch at all, so no `NotFound` error is raised) —
and an in-range delete removes exactly the indexed rule, preserving the
relative order of the remaining rules. -/
theorem delete_index_spec (rules : List SRule) (idx : Int) :
    (¬(0 ≤ idx ∧ idx < (rules.length : Int)) →
      delete_index rules idx = (rules, DeleteOutcome.silent))
    ∧ (0 ≤ idx → idx < (rules.length : Int) →
      delete_index rules idx
        = (rules.take idx.toNat ++ rules.drop (idx.toNat + 1), DeleteOutcome.deleted)) := by
  constructor
  · intro h
    unfold delete_index
    rw [if_neg h]
  · intro h1 h2
    unfold delete_index
    rw [if_pos ⟨h1, h2⟩, List.eraseIdx_eq_take_drop_succ]

/-- Claim C9, witness: a negative index is silently ignored; index `0`
on a two-rule list removes the first rule and keeps the second. -/
theorem delete_index_spec_witness :
    delete_index [⟨["aa"], "bb"⟩, ⟨["cc"], "dd"⟩] (-1)
        = ([⟨["aa"], "bb"⟩, ⟨["cc"], "dd"⟩], DeleteOutcome.silent)
    ∧ delete_index [⟨["aa"], "bb"⟩, ⟨["cc"], "dd"⟩] 0
        = (([⟨["aa"], "bb"⟩, ⟨["cc"], "dd"⟩] : List SRule).take 0
            ++ ([⟨["aa"], "bb"⟩, ⟨["cc"], "dd"⟩] : List SRule).drop 1,
          DeleteOutcome.deleted) :=
  ⟨(delete_index_spec [⟨["aa"], "bb"⟩, ⟨["cc"], "dd"⟩] (-1)).1 (by decide),
   (delete_index_spec [⟨["aa"], "bb"⟩, ⟨["cc"], "dd"⟩] 0).2 (by decide) (by decide)⟩

/-- Claim C9, counterexample to the claim as stated: an out-of-range
delete does not fail with any error — the handler's only outcomes are
`deleted` and `silent`, and index 5 on a one-rule list yields `silent`
with the sequence unchanged. -/
theorem delete_index_out_of_range_silent :
    delete_index [⟨["aa"], "bb"⟩] 5 = ([⟨["aa"], "bb"⟩], DeleteOutcome.silent) := by
  decide

/-- Claim C10: `get_probabilities` is total even on malformed data —
a rule with an empty condition list has zero matches and is excluded, so
the output equals the output over the rule list with such rules removed
(and the divisor `max 1 len` is never zero). -/
theorem get_probabilities_skips_empty_conditions (rules : List SRule) (facts : List String) :
    get_probabilities rules facts
      = get_probabilities (rules.filter (fun r => !r.«if».isEmpty)) facts := by
  unfold get_probabilities
  congr 1
  induction rules with
  | nil => rfl
  | cons r rs ih =>
    by_cases hp : (!r.«if».isEmpty) = true
    · rw [List.filter_cons, if_pos hp]
      simp only [List.filterMap_cons]
      rw [ih]
    · have hif : r.«if» = [] := by
        cases hx : r.«if».isEmpty
        · rw [hx] at hp
          simp at hp
        · exact List.isEmpty_iff.mp hx
      have hmc : matchCount facts r = 0 := by
        unfold matchCount
        rw [hif]
        rfl
      rw [List.filter_cons, if_neg hp, List.filterMap_cons, hmc,
        if_neg (lt_irrefl 0)]
      exact ih

/-- Claim C4 (amended): in `streamlit_app.get_probabilities`, a rule
with `matched > 0` scores `floor(matched / len(conditions) * 100)` (with
the divisor clamped to at least 1), and the rule's conclusion appears in
the result exactly for the rules with `matched > 0` and score at least
30.  (`infer_with_explanation` instead stores `round(ratio * 100, 2)`
— possibly fractional — and applies no threshold; see the
counterexample.) -/
theorem get_probabilities_floor_threshold (rules : List SRule) (facts : List String) :
    (∀ r ∈ rules, 0 < matchCount facts r → 30 ≤ probOf facts r →
      (⟨r.«then», probOf facts r⟩ : Prob) ∈ get_probabilities rules facts)
    ∧ (∀ e ∈ get_probabilities rules facts, ∃ r ∈ rules,
        e.disease = r.«then» ∧ e.prob = probOf facts r
          ∧ 0 < matchCount facts r ∧ 30 ≤ e.prob) := by
  have hmem : ∀ e : Prob, e ∈ get_probabilities rules facts ↔
      e ∈ rules.filterMap (fun r =>
        if 0 < matchCount facts r then
          if 30 ≤ probOf facts r then some ⟨r.«then», probOf facts r⟩ else none
        else none) := by
    intro e
    unfold get_probabilities
    exact (List.perm_insertionSort _ _).mem_iff
  constructor
  · intro r hr h1 h2
    rw [hmem]
    apply List.mem_filterMap.mpr
    refine ⟨r, hr, ?_⟩
    rw [if_pos h1, if_pos h2]
  · intro e he
    rw [hmem] at he
    obtain ⟨r, hr, hfr⟩ := List.mem_filterMap.mp he
    by_cases h1 : 0 < matchCount facts r
    · rw [if_pos h1] at hfr
      by_cases h2 : 30 ≤ probOf facts r
      · rw [if_pos h2] at hfr
        have he2 := Option.some.inj hfr
        refine ⟨r, hr, ?_, ?_, h1, ?_⟩
        · rw [← he2]
        · rw [← he2]
        · rw [← he2]
          exact h2
      · rw [if_neg h2] at hfr
        cases hfr
    · rw [if_neg h1] at hfr
      cases hfr

/-- Claim C4, witness: one rule with 1 of 2 conditions matched scores
`floor(1/2*100) = 50 ≥ 30` and its conclusion is in the result. -/
theorem get_probabilities_floor_threshold_witness :
    (⟨"cc", 50⟩ : Prob) ∈ get_probabilities [⟨["aa", "bb"], "cc"⟩] ["aa"] :=
  (get_probabilities_floor_threshold [⟨["aa", "bb"], "cc"⟩] ["aa"]).1
    ⟨["aa", "bb"], "cc"⟩ (by decide) (by decide) (by decide)

/-- Claim C4, counterexample to the claim as stated: in
`infer_with_explanation` (one of the claim's sources) a rule with 1 of
10 conditions matched contributes percent 10 < 30 (no threshold), and a
rule with 1 of 3 matched contributes 33.33, which is not the integer
`floor(1/3*100) = 33`. -/
theorem infer_percent_not_floor_no_threshold :
    (infer_with_explanation
        [⟨1, ["Aa", "Bb", "Cd", "De", "Ef", "Fg", "Gh", "Hi", "Ij", "Jk"], "Pp"⟩,
         ⟨2, ["Aa", "Xy", "Yz"], "Qq"⟩] ["Aa"]).part
      = [("Qq", 3333 / 100), ("Pp", 10)]
    ∧ (3333 : ℚ) / 100 ≠ 33 ∧ (10 : ℚ) < 30 := by
  refine ⟨?_, by norm_num, by norm_num⟩
  simp +decide only [infer_with_explanation, List.foldl, inferStep, ruleConds, ruleConcl,
    ruleMatched, rulePct, updateBest, lookupQ, setQ]
  simp +decide [pctOf_one_tenth, pctOf_one_third]
  norm_num [List.insertionSort, List.orderedInsert]
  exact ⟨by decide, by decide⟩

/-- Claim C5 (amended): in `infer_with_explanation`, when several rules
yield the same conclusion with different partial percentages, the
`partial` mapping contains that conclusion exactly once (its keys are
distinct), carrying the maximum percent over those rules — every entry
is attained by some partially-matching rule and bounds all of them, and
every partially-matching rule's conclusion is present.
(`get_probabilities` instead emits one entry per matching rule; see the
counterexample.) -/
theorem infer_partial_keeps_max (kb : List IRule) (facts : List String) :
    (keysOf (infer_with_explanation kb facts).part).Nodup
    ∧ (∀ c p, (c, p) ∈ (infer_with_explanation kb facts).part →
        (∃ r ∈ kb, isPartialHit (facts.map pyTitle) r = true ∧ ruleConcl r = c
            ∧ rulePct (facts.map pyTitle) r = p)
        ∧ ∀ r ∈ kb, isPartialHit (facts.map pyTitle) r = true → ruleConcl r = c →
            rulePct (facts.map pyTitle) r ≤ p)
    ∧ (∀ r ∈ kb, isPartialHit (facts.map pyTitle) r = true →
        ∃ p, (ruleConcl r, p) ∈ (infer_with_explanation kb facts).part) := by
  have hperm : ((infer_with_explanation kb facts).part).Perm
      (partFold (facts.map pyTitle) kb []) := by
    rw [infer_part_eq]
    exact List.perm_insertionSort _ _
  have hnodupM : (keysOf (partFold (facts.map pyTitle) kb [])).Nodup :=
    keysOf_partFold_nodup _ kb [] (by simp [keysOf])
  have hnodup : (keysOf (infer_with_explanation kb facts).part).Nodup := by
    have hmap := hperm.map Prod.fst
    exact hmap.nodup_iff.mpr hnodupM
  refine ⟨hnodup, ?_, ?_⟩
  · intro c p hm
    have hmM : (c, p) ∈ partFold (facts.map pyTitle) kb [] := hperm.mem_iff.mp hm
    have hlk : lookupQ (partFold (facts.map pyTitle) kb []) c = some p :=
      (mem_iff_lookupQ _ hnodupM c p).mp hmM
    rw [lookupQ_partFold] at hlk
    have hbest : bestPct (facts.map pyTitle) c kb = some p := by
      simpa [lookupQ, oMax] using hlk
    exact ⟨bestPct_attained _ c kb p hbest, bestPct_bound _ c kb p hbest⟩
  · intro r hr hhit
    obtain ⟨p, hp⟩ := bestPct_isSome_of_mem _ kb r hr hhit
    have hlk : lookupQ (partFold (facts.map pyTitle) kb []) (ruleConcl r) = some p := by
      rw [lookupQ_partFold]
      simpa [lookupQ, oMax] using hp
    have hmM : (ruleConcl r, p) ∈ partFold (facts.map pyTitle) kb [] :=
      (mem_iff_lookupQ _ hnodupM _ p).mpr hlk
    exact ⟨p, hperm.mem_iff.mpr hmM⟩

/-- Claim C5, witness: a single half-matched rule concluding `Dd`; the
entry `(Dd, 50)` is attained by that rule and bounds every rule. -/
theorem infer_partial_keeps_max_witness :
    (∃ r ∈ [(⟨1, ["Aa", "Bc"], "Dd"⟩ : IRule)],
        isPartialHit ((["Aa"] : List String).map pyTitle) r = true ∧ ruleConcl r = "Dd"
          ∧ rulePct ((["Aa"] : List String).map pyTitle) r = 50)
    ∧ ∀ r ∈ [(⟨1, ["Aa", "Bc"], "Dd"⟩ : IRule)],
        isPartialHit ((["Aa"] : List String).map pyTitle) r = true → ruleConcl r = "Dd" →
          rulePct ((["Aa"] : List String).map pyTitle) r ≤ 50 := by
  have hm : (("Dd", (50 : ℚ))) ∈ (infer_with_explanation [⟨1, ["Aa", "Bc"], "Dd"⟩] ["Aa"]).part := by
    simp +decide only [infer_with_explanation, List.foldl, inferStep, ruleConds, ruleConcl,
      ruleMatched, rulePct, updateBest, lookupQ, setQ]
    simp +decide [pctOf_one_half, List.insertionSort, List.orderedInsert]
  exact (infer_partial_keeps_max [⟨1, ["Aa", "Bc"], "Dd"⟩] ["Aa"]).2.1 "Dd" 50 hm

/-- Claim C5, counterexample to the claim as stated:
`streamlit_app.get_probabilities` (one of the claim's sources) emits one
entry per matching rule — two rules concluding `dd` with percentages 50
and 33 give two entries for `dd`, not one entry with the maximum. -/
theorem get_probabilities_duplicate_conclusion :
    get_probabilities [⟨["aa", "bb"], "dd"⟩, ⟨["aa", "cc", "ee"], "dd"⟩] ["aa"]
        = [⟨"dd", 50⟩, ⟨"dd", 33⟩]
    ∧ ¬((get_probabilities [⟨["aa", "bb"], "dd"⟩, ⟨["aa", "cc", "ee"], "dd"⟩] ["aa"]).map
        Prob.disease).Nodup :=
  ⟨by decide, by decide⟩

/-- Claim C8 (amended): `is_valid_term` rejects every term whose
stripped length — counting all characters, interior spaces included —
is below 3; rejects every term containing a run of three or more
identical consecutive letters; rejects every term containing a
character that is neither a letter nor whitespace; rejects every term
without a lower-case vowel; rejects `"aaaa"` and `"ok"`; and accepts
`"flu"`, `"cough"` and `"fever"`.  (The length check counts spaces, not
just letters; see the counterexample.) -/
theorem is_valid_term_spec :
    (∀ t : String, (pyStrip t).length < 3 → is_valid_term t = false)
    ∧ (∀ (t : String) (a : Char), a.isAlpha = true →
        (∃ l1 l2, t.data = l1 ++ [a, a, a] ++ l2) → is_valid_term t = false)
    ∧ (∀ (t : String) (c : Char), c ∈ t.data → c.isAlpha = false → isPySpace c = false →
        is_valid_term t = false)
    ∧ (∀ t : String, (∀ c ∈ t.data, c ∉ (['a', 'e', 'i', 'o', 'u'] : List Char)) →
        is_valid_term t = false)
    ∧ is_valid_term "aaaa" = false ∧ is_valid_term "ok" = false
    ∧ is_valid_term "flu" = true ∧ is_valid_term "cough" = true
    ∧ is_valid_term "fever" = true := by
  refine ⟨?_, ?_, ?_, ?_, by decide, by decide, by decide, by decide, by decide⟩
  · intro t h
    simp [is_valid_term, h]
  · intro t a halpha htrip
    have hsp := not_pySpace_of_alpha a halpha
    have h1 := triple_pyStrip a t hsp htrip
    have h2 : ∃ m1 m2, stripSpaces (pyStrip t) = m1 ++ [a, a, a] ++ m2 := by
      unfold stripSpaces
      exact triple_filter _ a (by simp [ne_space_of_not_pySpace a hsp]) _ h1
    obtain ⟨m1, m2, hm⟩ := h2
    have hrun : hasRun3 (stripSpaces (pyStrip t)) = true := by
      rw [hm]
      exact hasRun3_of_triple a m1 m2
    simp [is_valid_term, hrun]
  · intro t c hmem halpha hsp
    have h1 : c ∈ (pyStrip t).data := mem_pyStrip t c hmem (by simp [hsp])
    have h2 : c ∈ stripSpaces (pyStrip t) := by
      unfold stripSpaces
      exact List.mem_filter.mpr ⟨h1, by simp [ne_space_of_not_pySpace c hsp]⟩
    have hall : pyIsAlphaStr (stripSpaces (pyStrip t)) = false := by
      unfold pyIsAlphaStr
      have hx : (stripSpaces (pyStrip t)).all Char.isAlpha = false := by
        cases hy : (stripSpaces (pyStrip t)).all Char.isAlpha
        · rfl
        · exfalso
          have := List.all_eq_true.mp hy c h2
          rw [halpha] at this
          cases this
      rw [hx]
      simp
    simp [is_valid_term, hall]
  · intro t hnv
    have hv : has_vowel (pyStrip t) = false := by
      cases hy : has_vowel (pyStrip t)
      · rfl
      · exfalso
        unfold has_vowel at hy
        obtain ⟨c, hc1, hc2⟩ := List.any_eq_true.mp hy
        have hct : c ∈ t.data := mem_of_mem_pyStrip t c hc1
        have hcv : c ∈ (['a', 'e', 'i', 'o', 'u'] : List Char) := by
          rcases (by simpa [or_assoc] using hc2 :
              c = 'a' ∨ c = 'e' ∨ c = 'i' ∨ c = 'o' ∨ c = 'u') with rfl | rfl | rfl | rfl | rfl
          · decide
          · decide
          · decide
          · decide
          · decide
        exact hnv c hct hcv
    simp [is_valid_term, hv]

/-- Claim C8, witness: the trimmed length check rejects `"ab"`, and the
run check rejects `"xaaay"` (a run of three `a`s). -/
theorem is_valid_term_spec_witness :
    is_valid_term "ab" = false ∧ is_valid_term "xaaay" = false :=
  ⟨is_valid_term_spec.1 "ab" (by decide),
   is_valid_term_spec.2.1 "xaaay" 'a' (by decide) ⟨['x'], ['y'], by decide⟩⟩

/-- Claim C8, counterexample to the claim as stated: the length check
counts every character of the stripped term, not only letters — the
term `"a b"` has only 2 letters (spaces excluded) yet is accepted,
because its full length is 3. -/
theorem is_valid_term_length_counts_spaces :
    is_valid_term "a b" = true ∧ ("a b".data.filter Char.isAlpha).length < 3 :=
  ⟨by decide, by decide⟩

end KBAgent
